import Mathlib

/-!
# Verification of the verinc version rewriter (src/src/lib.rs)

The library exposes two operations over a text buffer:

* `inc hay position version` — scan `hay` for version triples `X.Y.Z`
  (regex `(?<major>0|[1-9]\d*)\.(?<minor>0|[1-9]\d*)\.(?<patch>0|[1-9]\d*)`),
  and for each match selected by `position` increment one component
  according to `version`, resetting the lower components; every match
  (selected or not) is re-emitted as `{major}.{minor}.{patch}` from its
  parsed `u32` components, and all non-matching text is copied verbatim.
* `list_versions hay` — the ordered list of matched substrings.

The embedding below is a direct shallow embedding of the Rust code:

* The regex is embedded as a deterministic parser.  This is faithful
  because the alternation `0|[1-9]\d*` is deterministic at any position
  (the two branches are distinguished by the first character), and
  backtracking on the greedy `\d*` can never rescue a failed overall
  match: the character following the group in the pattern is `\.` (or the
  end of the pattern), and giving a digit back from `\d*` leaves a digit
  at the next input position, which is not `.`.  Hence the leftmost-first
  match of the Rust regex engine at a given position coincides with this
  deterministic parse.
* `u32` parsing (`caps[..].parse::<u32>().unwrap()`) fails — `unwrap`
  aborts the call — when the numeral's value does not fit below `2^32`;
  the embedding returns `Option`, `none` meaning the aborted call.
* The component increment `+= 1` on `u32` is modelled with the
  overflow-checked semantics under which the crate's own test suite runs
  (the default debug profile): overflow aborts the call, again `none`.
  (A release build would instead wrap modulo `2^32`.)
* The `u32` occurrence counter `idx` and the `Nth` payload are modelled
  as `Nat`; they only wrap for inputs with at least `2^32` matches
  (over 20 GiB of text), which the model treats as unbounded.
* Scanning recursions are driven by a fuel argument; the entry points
  pass fuel `length + 1`, which is ample since every match consumes at
  least five characters.  Lemmas below are fuel-generic.
-/

namespace Verinc

/-- The character class `\d` = `[0-9]` of the pattern. -/
def isDigitC (c : Char) : Bool := 48 ≤ c.toNat && c.toNat ≤ 57

/-- The character class `[1-9]` of the pattern. -/
def isNonzeroDigitC (c : Char) : Bool := 49 ≤ c.toNat && c.toNat ≤ 57

/-- Numeric value of a decimal digit character. -/
def charVal (c : Char) : Nat := c.toNat - 48

/-- The decimal digit character for a value `d < 10`. -/
def digitToChar (d : Nat) : Char := Char.ofNat (48 + d)

/-- Value of a big-endian decimal digit string (as `str::parse` computes it). -/
def digitsVal : List Char → Nat
  | [] => 0
  | c :: cs => charVal c * 10 ^ cs.length + digitsVal cs

/-- Decimal digits of `n`, big-endian, driven by fuel (`fuel ≥ n` suffices). -/
def toDecAux : Nat → Nat → List Char
  | 0, _ => []
  | fuel + 1, n => if n = 0 then [] else toDecAux fuel (n / 10) ++ [digitToChar (n % 10)]

/-- Canonical decimal representation of `n`, as Rust's `format!("{}", n)`
produces it: no leading zeros, `"0"` for zero. -/
def natToDigitChars (n : Nat) : List Char := if n = 0 then ['0'] else toDecAux n n

/-- A digit string matched by the group `0|[1-9]\d*`: the single digit `0`,
or a nonzero digit followed by arbitrary digits. -/
def canonNumeral : List Char → Bool
  | [] => false
  | c :: cs => if c = '0' then cs.isEmpty else isNonzeroDigitC c && cs.all isDigitC

/-- The three named capture groups (major, minor, patch) of one match. -/
abbrev Caps := List Char × List Char × List Char

/-- All three capture groups are canonical numerals. -/
def canonCaps (c : Caps) : Bool :=
  canonNumeral c.1 && canonNumeral c.2.1 && canonNumeral c.2.2

/-- The text of a whole match, reassembled from its capture groups. -/
def capsText (c : Caps) : List Char := c.1 ++ '.' :: c.2.1 ++ '.' :: c.2.2

/-- Match the group `0|[1-9]\d*` at the front of the input: the branch `0`
consumes exactly one character, the branch `[1-9]\d*` is greedy.  Returns
the captured digits and the remaining input. -/
def numeralGroup : List Char → Option (List Char × List Char)
  | [] => none
  | c :: cs =>
    if c = '0' then some ([c], cs)
    else if isNonzeroDigitC c then some (c :: cs.takeWhile isDigitC, cs.dropWhile isDigitC)
    else none

/-- Match the literal `\.` at the front of the input. -/
def expectDot : List Char → Option (List Char)
  | '.' :: s => some s
  | _ => none

/-- Match the whole pattern
`(?<major>0|[1-9]\d*)\.(?<minor>0|[1-9]\d*)\.(?<patch>0|[1-9]\d*)`
anchored at the front of the input.  Returns the captures and the rest. -/
def matchVersionAt (s : List Char) : Option (Caps × List Char) :=
  (numeralGroup s).bind fun p1 =>
    (expectDot p1.2).bind fun s2 =>
      (numeralGroup s2).bind fun p2 =>
        (expectDot p2.2).bind fun s4 =>
          (numeralGroup s4).map fun p3 => ((p1.1, p2.1, p3.1), p3.2)

/-- Leftmost match of the pattern in the input: the first position at which
`matchVersionAt` succeeds.  Returns the text before the match, the captures,
and the text after the match. -/
def findFirst : List Char → Option (List Char × Caps × List Char)
  | [] => none
  | c :: rest =>
    match matchVersionAt (c :: rest) with
    | some (caps, after) => some ([], caps, after)
    | none =>
      match findFirst rest with
      | some (pre, caps, after) => some (c :: pre, caps, after)
      | none => none

/-- `Position` from src/src/lib.rs (the `Nth` payload is `u32` there;
see the header comment). -/
inductive Position where
  | All : Position
  | Nth : Nat → Position

/-- `Version` from src/src/lib.rs. -/
inductive Version where
  | Major : Version
  | Minor : Version
  | Patch : Version

/-- The selection test of `Replace::replace_append`:
`matches!(position, Nth(n) if n == idx) || matches!(position, All)`. -/
def selected (pos : Position) (idx : Nat) : Bool :=
  match pos with
  | .All => true
  | .Nth n => n == idx

/-- `str::parse::<u32>` on a captured numeral group: its decimal value if it
fits in 32 bits, otherwise failure (the `unwrap` in the source aborts). -/
def parseU32 (ds : List Char) : Option Nat :=
  if digitsVal ds < 2 ^ 32 then some (digitsVal ds) else none

/-- `u32` increment (`+= 1`) under overflow-checked semantics: aborts
(`none`) when the result would reach `2^32`. -/
def checkedInc (n : Nat) : Option Nat :=
  if n + 1 < 2 ^ 32 then some (n + 1) else none

/-- The increment arm of `Replace::replace_append`: bump one component,
reset the lower ones. -/
def incTriple (ver : Version) : Nat × Nat × Nat → Option (Nat × Nat × Nat)
  | (mj, mn, pt) =>
    match ver with
    | .Major => (checkedInc mj).map fun a => (a, 0, 0)
    | .Minor => (checkedInc mn).map fun a => (mj, a, 0)
    | .Patch => (checkedInc pt).map fun a => (mj, mn, a)

/-- One `replace_append` call for the match with captures `caps` at
occurrence index `idx`: parse all three components (unconditionally, before
the selection test), increment if selected, and return the triple whose
formatting is pushed onto the output. -/
def replaceStep (pos : Position) (ver : Version) (idx : Nat) (caps : Caps) :
    Option (Nat × Nat × Nat) :=
  (parseU32 caps.1).bind fun mj =>
    (parseU32 caps.2.1).bind fun mn =>
      (parseU32 caps.2.2).bind fun pt =>
        if selected pos idx then incTriple ver (mj, mn, pt) else some (mj, mn, pt)

/-- `format!("{}.{}.{}", major, minor, patch)`. -/
def formatTriple (t : Nat × Nat × Nat) : List Char :=
  natToDigitChars t.1 ++ '.' :: natToDigitChars t.2.1 ++ '.' :: natToDigitChars t.2.2

/-- `Regex::replace_all` with the `Replace` replacer: walk the matches left
to right keeping the occurrence counter `idx`, copy the gap before each
match verbatim, emit the formatted (possibly incremented) triple for the
match, and copy the tail after the last match verbatim.  `fuel` drives the
recursion; any `fuel > length` is ample. -/
def replaceCore (pos : Position) (ver : Version) : Nat → Nat → List Char → Option (List Char)
  | 0, _, s => some s
  | fuel + 1, idx, s =>
    match findFirst s with
    | none => some s
    | some (pre, caps, after) =>
      (replaceStep pos ver idx caps).bind fun t =>
        (replaceCore pos ver fuel (idx + 1) after).map fun rest =>
          pre ++ formatTriple t ++ rest

/-- `pub fn inc` from src/src/lib.rs.  `none` models the aborted call
(`unwrap` panic on an unparsable `u32`, or checked-increment overflow). -/
def inc (hay : String) (pos : Position) (ver : Version) : Option String :=
  (replaceCore pos ver (hay.data.length + 1) 0 hay.data).map List.asString

/-- The sequence of (gap before the match, captures) pairs produced by
scanning the input with `findFirst`, i.e. the decomposition that
`find_iter` / `replace_all` traverse. -/
def scanSegs : Nat → List Char → List (List Char × Caps)
  | 0, _ => []
  | fuel + 1, s =>
    match findFirst s with
    | none => []
    | some (pre, caps, after) => (pre, caps) :: scanSegs fuel after

/-- The text after the last match of the scan. -/
def scanTail : Nat → List Char → List Char
  | 0, s => s
  | fuel + 1, s =>
    match findFirst s with
    | none => s
    | some (_, _, after) => scanTail fuel after

/-- The scan decomposition of a string, at the entry-point fuel. -/
def versionSegs (hay : String) : List (List Char × Caps) :=
  scanSegs (hay.data.length + 1) hay.data

/-- The tail of the scan decomposition of a string. -/
def versionTail (hay : String) : List Char :=
  scanTail (hay.data.length + 1) hay.data

/-- `pub fn list_versions` from src/src/lib.rs: the matched substrings
(`m.as_str()`) in order of appearance. -/
def list_versions (hay : String) : List String :=
  (versionSegs hay).map fun pc => (capsText pc.2).asString

/-- `idx ↦ (idx, x)` pairing of a list with consecutive indices, used to
state per-occurrence properties. -/
def withIdx {α : Type} : Nat → List α → List (Nat × α)
  | _, [] => []
  | i, x :: xs => (i, x) :: withIdx (i + 1) xs

/-- The `u32` parse of all three capture groups succeeds. -/
def capsFit (c : Caps) : Bool :=
  decide (digitsVal c.1 < 2 ^ 32) && decide (digitsVal c.2.1 < 2 ^ 32)
    && decide (digitsVal c.2.2 < 2 ^ 32)

/-- The numeric components of a match, as the code parses them. -/
def parsedTriple (c : Caps) : Nat × Nat × Nat :=
  (digitsVal c.1, digitsVal c.2.1, digitsVal c.2.2)

/-- The increment rule exactly as the spec states it (§4.2): `Major` gives
(major+1, 0, 0); `Minor` gives (major, minor+1, 0); `Patch` gives
(major, minor, patch+1).  Stated totally over `Nat`, to be compared with
the code's checked `u32` arithmetic. -/
def specIncRule (ver : Version) : Nat × Nat × Nat → Nat × Nat × Nat
  | (mj, mn, pt) =>
    match ver with
    | .Major => (mj + 1, 0, 0)
    | .Minor => (mj, mn + 1, 0)
    | .Patch => (mj, mn, pt + 1)

/-- The per-match emission pass of `replace_all`, factored over the scan
decomposition: process the segments in order, keeping the occurrence
counter, and concatenate gap + formatted triple for each. -/
def emitAll (pos : Position) (ver : Version) : Nat → List (List Char × Caps) → Option (List Char)
  | _, [] => some []
  | idx, pc :: rest =>
    (replaceStep pos ver idx pc.2).bind fun t =>
      (emitAll pos ver (idx + 1) rest).map fun r => pc.1 ++ formatTriple t ++ r

/-- Reassemble the scan decomposition verbatim: each gap followed by the
original matched text. -/
def joinOrig (l : List (List Char × Caps)) : List Char :=
  (l.map fun pc => pc.1 ++ capsText pc.2).flatten

/-- The `{old} -> {new}` notice text printed for a rewritten occurrence. -/
def noticeText (old new : Nat × Nat × Nat) : List Char :=
  formatTriple old ++ ' ' :: '-' :: '>' :: ' ' :: formatTriple new

/-- `Replace::replace_append` including its diagnostic side channel: the
notice `{old} -> {new}` is emitted only when the output destination is a
terminal (`isTerm`), and only for a selected occurrence.  The primary
replacement triple is exactly as in `replaceStep`. -/
def replaceStepFull (isTerm : Bool) (pos : Position) (ver : Version) (idx : Nat)
    (caps : Caps) : Option ((Nat × Nat × Nat) × List (List Char)) :=
  (parseU32 caps.1).bind fun mj =>
    (parseU32 caps.2.1).bind fun mn =>
      (parseU32 caps.2.2).bind fun pt =>
        if selected pos idx then
          (incTriple ver (mj, mn, pt)).map fun t =>
            (t, if isTerm then [noticeText (mj, mn, pt) t] else [])
        else some ((mj, mn, pt), [])

/-- `replace_all` together with the ordered diagnostic notices. -/
def replaceCoreFull (isTerm : Bool) (pos : Position) (ver : Version) :
    Nat → Nat → List Char → Option (List Char × List (List Char))
  | 0, _, s => some (s, [])
  | fuel + 1, idx, s =>
    match findFirst s with
    | none => some (s, [])
    | some (pre, caps, after) =>
      (replaceStepFull isTerm pos ver idx caps).bind fun tn =>
        (replaceCoreFull isTerm pos ver fuel (idx + 1) after).map fun rn =>
          (pre ++ formatTriple tn.1 ++ rn.1, tn.2 ++ rn.2)

/-- `inc` with the interactivity flag made explicit: the primary output
string together with the list of `{old} -> {new}` notices emitted to the
diagnostic channel. -/
def incFull (isTerm : Bool) (hay : String) (pos : Position) (ver : Version) :
    Option (String × List String) :=
  (replaceCoreFull isTerm pos ver (hay.data.length + 1) 0 hay.data).map
    fun r => (r.1.asString, r.2.map List.asString)

end Verinc

namespace Verinc

-- Sanity checks mirroring the crate's own test suite (src/src/lib.rs tests).
example : inc "foo bar baz" (Position.Nth 1) Version.Patch = some "foo bar baz" := by decide
example : inc "1.0.0" (Position.Nth 0) Version.Patch = some "1.0.1" := by decide
example : inc "1.0.0 1.0.0" (Position.Nth 1) Version.Patch = some "1.0.0 1.0.1" := by decide
example : inc "1.0.0 1.2.1" (Position.Nth 1) Version.Minor = some "1.0.0 1.3.0" := by decide
example : inc "3.0.2 1.0.1" Position.All Version.Major = some "4.0.0 2.0.0" := by decide
example : inc "1.01.0 12.13.14" (Position.Nth 0) Version.Major = some "1.01.0 13.0.0" := by
  decide
example : inc "1.1.0\nhello\nworld\n12.13.14" (Position.Nth 1) Version.Minor
    = some "1.1.0\nhello\nworld\n12.14.0" := by decide
example : list_versions "1.01.0 12.13.14" = ["12.13.14"] := by decide
example : list_versions "12.13.14x" = ["12.13.14"] := by decide

/-! ## Digit characters and decimal numerals -/

theorem isDigitC_iff {c : Char} : isDigitC c = true ↔ 48 ≤ c.toNat ∧ c.toNat ≤ 57 := by
  simp [isDigitC]

theorem isNonzeroDigitC_iff {c : Char} :
    isNonzeroDigitC c = true ↔ 49 ≤ c.toNat ∧ c.toNat ≤ 57 := by
  simp [isNonzeroDigitC]

theorem charVal_lt_ten {c : Char} (h : isDigitC c = true) : charVal c < 10 := by
  rw [isDigitC_iff] at h
  unfold charVal
  omega

theorem charVal_pos {c : Char} (h : isNonzeroDigitC c = true) : 1 ≤ charVal c := by
  rw [isNonzeroDigitC_iff] at h
  unfold charVal
  omega

theorem isDigitC_of_nonzero {c : Char} (h : isNonzeroDigitC c = true) : isDigitC c = true := by
  rw [isNonzeroDigitC_iff] at h
  rw [isDigitC_iff]
  omega

theorem ne_zeroChar_of_nonzero {c : Char} (h : isNonzeroDigitC c = true) : c ≠ '0' := by
  intro e
  subst e
  exact absurd h (by decide)

theorem toNat_digitToChar {d : Nat} (h : d < 10) : (digitToChar d).toNat = 48 + d := by
  interval_cases d <;> decide

theorem digitToChar_charVal {c : Char} (h : isDigitC c = true) :
    digitToChar (charVal c) = c := by
  rw [isDigitC_iff] at h
  have e : 48 + charVal c = c.toNat := by unfold charVal; omega
  rw [digitToChar, e, Char.ofNat_toNat]

theorem charVal_digitToChar {d : Nat} (h : d < 10) : charVal (digitToChar d) = d := by
  unfold charVal
  rw [toNat_digitToChar h]
  omega

theorem isDigitC_digitToChar {d : Nat} (h : d < 10) : isDigitC (digitToChar d) = true := by
  rw [isDigitC_iff, toNat_digitToChar h]
  omega

theorem isNonzeroDigitC_digitToChar {d : Nat} (h1 : 1 ≤ d) (h2 : d < 10) :
    isNonzeroDigitC (digitToChar d) = true := by
  rw [isNonzeroDigitC_iff, toNat_digitToChar h2]
  omega

theorem digitsVal_append_singleton (ds : List Char) (c : Char) :
    digitsVal (ds ++ [c]) = 10 * digitsVal ds + charVal c := by
  induction ds with
  | nil => simp [digitsVal]
  | cons d ds ih =>
    simp only [List.cons_append, digitsVal, List.append_eq, ih, List.length_append,
      List.length_cons, List.length_nil]
    ring

theorem digitsVal_pos {c : Char} (cs : List Char) (h : isNonzeroDigitC c = true) :
    1 ≤ digitsVal (c :: cs) := by
  have h1 : 1 ≤ charVal c := charVal_pos h
  have h2 : 1 ≤ 10 ^ cs.length := Nat.one_le_pow _ _ (by norm_num)
  calc 1 = 1 * 1 := rfl
    _ ≤ charVal c * 10 ^ cs.length := Nat.mul_le_mul h1 h2
    _ ≤ charVal c * 10 ^ cs.length + digitsVal cs := Nat.le_add_right _ _

theorem toDecAux_zero (f : Nat) : toDecAux f 0 = [] := by
  cases f <;> simp [toDecAux]

theorem toDecAux_fuel : ∀ (f₁ f₂ n : Nat), n ≤ f₁ → n ≤ f₂ →
    toDecAux f₁ n = toDecAux f₂ n := by
  intro f₁
  induction f₁ with
  | zero =>
    intro f₂ n h1 _
    interval_cases n
    simp [toDecAux_zero]
  | succ f ih =>
    intro f₂ n h1 h2
    rcases Nat.eq_zero_or_pos n with rfl | hn
    · simp [toDecAux_zero]
    · have hne : n ≠ 0 := by omega
      obtain ⟨g, rfl⟩ : ∃ g, f₂ = g + 1 := ⟨f₂ - 1, by omega⟩
      have hlt := Nat.div_lt_self hn (by norm_num : 1 < 10)
      simp only [toDecAux, if_neg hne]
      rw [ih g (n / 10) (by omega) (by omega)]

theorem digitsVal_toDecAux : ∀ (f n : Nat), n ≤ f → digitsVal (toDecAux f n) = n := by
  intro f
  induction f with
  | zero =>
    intro n h
    interval_cases n
    simp [toDecAux_zero, digitsVal]
  | succ f ih =>
    intro n h
    rcases Nat.eq_zero_or_pos n with rfl | hn
    · simp [toDecAux_zero, digitsVal]
    · have hne : n ≠ 0 := by omega
      have hlt := Nat.div_lt_self hn (by norm_num : 1 < 10)
      simp only [toDecAux, if_neg hne]
      rw [digitsVal_append_singleton, ih _ (by omega),
        charVal_digitToChar (Nat.mod_lt n (by norm_num))]
      omega

theorem toDecAux_canon : ∀ (f n : Nat), 1 ≤ n → n ≤ f →
    ∃ c cs, toDecAux f n = c :: cs ∧ isNonzeroDigitC c = true ∧ cs.all isDigitC = true := by
  intro f
  induction f with
  | zero => intro n h1 h2; omega
  | succ f ih =>
    intro n h1 _
    have hne : n ≠ 0 := by omega
    simp only [toDecAux, if_neg hne]
    rcases Nat.lt_or_ge n 10 with hlt | hge
    · rw [Nat.div_eq_of_lt hlt, toDecAux_zero, Nat.mod_eq_of_lt hlt]
      exact ⟨digitToChar n, [], rfl, isNonzeroDigitC_digitToChar h1 hlt, rfl⟩
    · have hd1 : 1 ≤ n / 10 := (Nat.le_div_iff_mul_le (by norm_num)).mpr (by omega)
      have hd2 : n / 10 ≤ f := by
        have := Nat.div_lt_self (by omega : 0 < n) (by norm_num : 1 < 10)
        omega
      obtain ⟨c, cs, heq, hc, hcs⟩ := ih _ hd1 hd2
      rw [heq]
      refine ⟨c, cs ++ [digitToChar (n % 10)], by simp, hc, ?_⟩
      simp only [List.all_append, hcs, Bool.true_and, List.all_cons, List.all_nil,
        Bool.and_true]
      exact isDigitC_digitToChar (Nat.mod_lt n (by norm_num))

theorem canonNumeral_natToDigitChars (n : Nat) : canonNumeral (natToDigitChars n) = true := by
  rcases Nat.eq_zero_or_pos n with rfl | hn
  · decide
  · have hne : n ≠ 0 := by omega
    rw [natToDigitChars, if_neg hne]
    obtain ⟨c, cs, heq, hc, hcs⟩ := toDecAux_canon n n hn le_rfl
    rw [heq]
    simp [canonNumeral, if_neg (ne_zeroChar_of_nonzero hc), hc, hcs]

theorem digitsVal_natToDigitChars (n : Nat) : digitsVal (natToDigitChars n) = n := by
  rcases Nat.eq_zero_or_pos n with rfl | hn
  · decide
  · rw [natToDigitChars, if_neg (by omega)]
    exact digitsVal_toDecAux n n le_rfl

theorem natToDigitChars_small {n : Nat} (h1 : 1 ≤ n) (h2 : n < 10) :
    natToDigitChars n = [digitToChar n] := by
  obtain ⟨f, rfl⟩ : ∃ f, n = f + 1 := ⟨n - 1, by omega⟩
  rw [natToDigitChars, if_neg (by omega)]
  show toDecAux (f + 1) (f + 1) = _
  simp only [toDecAux, if_neg (by omega : ¬ f + 1 = 0)]
  rw [Nat.div_eq_of_lt h2, toDecAux_zero, Nat.mod_eq_of_lt h2]
  rfl

theorem canonNumeral_dropLast {c d : Char} {cs : List Char}
    (h : canonNumeral ((c :: cs) ++ [d]) = true) :
    canonNumeral (c :: cs) = true ∧ isDigitC d = true ∧ isNonzeroDigitC c = true := by
  by_cases hc : c = '0'
  · subst hc
    simp [canonNumeral] at h
  · simp only [List.cons_append, canonNumeral, if_neg hc, Bool.and_eq_true,
      List.all_append, List.all_cons, List.all_nil, Bool.and_true] at h ⊢
    exact ⟨⟨h.1, h.2.1⟩, h.2.2, h.1⟩

/-- Round trip: formatting the parsed value of a canonical numeral group
reproduces the original digits byte for byte. -/
theorem natToDigitChars_digitsVal : ∀ ds : List Char, canonNumeral ds = true →
    natToDigitChars (digitsVal ds) = ds := by
  intro ds
  induction ds using List.reverseRecOn with
  | nil => intro h; simp [canonNumeral] at h
  | append_singleton t d ih =>
    intro h
    cases t with
    | nil =>
      simp only [List.nil_append] at h ⊢
      by_cases hd : d = '0'
      · subst hd; decide
      · have hdn : isNonzeroDigitC d = true := by
          simpa [canonNumeral, if_neg hd] using h
        have hval : digitsVal [d] = charVal d := by simp [digitsVal]
        rw [hval, natToDigitChars_small (charVal_pos hdn)
          (charVal_lt_ten (isDigitC_of_nonzero hdn)), digitToChar_charVal
          (isDigitC_of_nonzero hdn)]
    | cons c cs =>
      obtain ⟨ht, hd, hc⟩ := canonNumeral_dropLast h
      have hv : 1 ≤ digitsVal (c :: cs) := digitsVal_pos cs hc
      have hdlt : charVal d < 10 := charVal_lt_ten hd
      set v := digitsVal (c :: cs) with hvdef
      have hn : digitsVal ((c :: cs) ++ [d]) = 10 * v + charVal d :=
        digitsVal_append_singleton _ _
      rw [hn]
      have hpos : 10 * v + charVal d ≠ 0 := by omega
      obtain ⟨f, hf⟩ : ∃ f, 10 * v + charVal d = f + 1 := ⟨10 * v + charVal d - 1, by omega⟩
      rw [natToDigitChars, if_neg hpos, hf]
      simp only [toDecAux, if_neg (by omega : ¬ f + 1 = 0)]
      have hdiv : (f + 1) / 10 = v := by omega
      have hmod : (f + 1) % 10 = charVal d := by omega
      rw [hdiv, hmod, digitToChar_charVal hd,
        toDecAux_fuel f v v (by omega) le_rfl]
      have := ih ht
      rw [natToDigitChars, if_neg (by omega)] at this
      rw [this]

/-- Round trip for a whole match: re-emitting the parsed components
reproduces the matched text. -/
theorem formatTriple_parsedTriple {c : Caps} (h : canonCaps c = true) :
    formatTriple (parsedTriple c) = capsText c := by
  have h' : canonNumeral c.1 = true ∧ canonNumeral c.2.1 = true ∧ canonNumeral c.2.2 = true := by
    simpa [canonCaps, Bool.and_eq_true, and_assoc] using h
  simp [formatTriple, parsedTriple, capsText, natToDigitChars_digitsVal _ h'.1,
    natToDigitChars_digitsVal _ h'.2.1, natToDigitChars_digitsVal _ h'.2.2]

/-! ## Structure of matches and of the scan -/

theorem length_dropWhile_le (p : Char → Bool) (l : List Char) :
    (l.dropWhile p).length ≤ l.length := by
  conv_rhs => rw [← List.takeWhile_append_dropWhile (p := p) (l := l)]
  rw [List.length_append]
  omega

theorem numeralGroup_spec {s ds rest : List Char} (h : numeralGroup s = some (ds, rest)) :
    s = ds ++ rest ∧ canonNumeral ds = true ∧ rest.length < s.length := by
  cases s with
  | nil => exact Option.noConfusion h
  | cons c cs =>
    by_cases hc : c = '0'
    · subst hc
      simp only [numeralGroup, if_pos rfl, Option.some.injEq, Prod.mk.injEq] at h
      obtain ⟨rfl, rfl⟩ := h
      exact ⟨rfl, by decide, by simp⟩
    · by_cases hnz : isNonzeroDigitC c = true
      · simp only [numeralGroup, if_neg hc, if_pos hnz, Option.some.injEq,
          Prod.mk.injEq] at h
        obtain ⟨rfl, rfl⟩ := h
        refine ⟨?_, ?_, ?_⟩
        · rw [List.cons_append, List.takeWhile_append_dropWhile]
        · simp only [canonNumeral, if_neg hc, hnz, Bool.true_and]
          rw [List.all_eq_true]
          intro x hx
          exact List.mem_takeWhile_imp hx
        · have := length_dropWhile_le isDigitC cs
          simp only [List.length_cons]
          omega
      · simp [numeralGroup, if_neg hc, hnz] at h

theorem expectDot_spec {s r : List Char} (h : expectDot s = some r) : s = '.' :: r := by
  unfold expectDot at h
  split at h
  · injection h with h
    rw [h]
  · exact Option.noConfusion h

theorem matchVersionAt_spec {s rest : List Char} {caps : Caps}
    (h : matchVersionAt s = some (caps, rest)) :
    s = capsText caps ++ rest ∧ canonCaps caps = true ∧ rest.length < s.length := by
  simp only [matchVersionAt, Option.bind_eq_some, Option.map_eq_some'] at h
  obtain ⟨⟨mj, s1⟩, h1, s2, h2, ⟨mn, s3⟩, h3, s4, h4, ⟨pt, s5⟩, h5, heq⟩ := h
  injection heq with e1 e2
  subst e1
  subst e2
  obtain ⟨e1a, c1, l1⟩ := numeralGroup_spec h1
  have e2a := expectDot_spec h2
  obtain ⟨e3a, c3, l3⟩ := numeralGroup_spec h3
  have e4a := expectDot_spec h4
  obtain ⟨e5a, c5, l5⟩ := numeralGroup_spec h5
  simp only at e2a e4a
  refine ⟨?_, ?_, ?_⟩
  · rw [e1a, e2a, e3a, e4a, e5a]
    simp [capsText]
  · simp [canonCaps, c1, c3, c5]
  · show s5.length < s.length
    have L2 : s2.length < s1.length := by rw [e2a]; simp
    have L4 : s4.length < s3.length := by rw [e4a]; simp
    omega

theorem findFirst_spec : ∀ {s pre after : List Char} {caps : Caps},
    findFirst s = some (pre, caps, after) →
    s = pre ++ capsText caps ++ after ∧ canonCaps caps = true ∧ after.length < s.length := by
  intro s
  induction s with
  | nil => intro pre after caps h; exact Option.noConfusion h
  | cons c rest ih =>
    intro pre after caps h
    cases hm : matchVersionAt (c :: rest) with
    | some p =>
      obtain ⟨caps', after'⟩ := p
      simp only [findFirst, hm, Option.some.injEq, Prod.mk.injEq] at h
      obtain ⟨rfl, rfl, rfl⟩ := h
      obtain ⟨e, hcanon, hl⟩ := matchVersionAt_spec hm
      exact ⟨by simpa using e, hcanon, hl⟩
    | none =>
      simp only [findFirst, hm] at h
      cases hf : findFirst rest with
      | none => rw [hf] at h; exact Option.noConfusion h
      | some q =>
        obtain ⟨pre', caps', after'⟩ := q
        rw [hf] at h
        simp only [Option.some.injEq, Prod.mk.injEq] at h
        obtain ⟨rfl, rfl, rfl⟩ := h
        obtain ⟨e, hcanon, hl⟩ := ih hf
        refine ⟨by simp [e], hcanon, ?_⟩
        simp only [List.length_cons]
        omega

/-- The scan reports the leftmost match: the pattern fails to match at
every position strictly before the reported one, and matches exactly at
the reported one. -/
theorem findFirst_leftmost : ∀ {s pre after : List Char} {caps : Caps},
    findFirst s = some (pre, caps, after) →
    (∀ i, i < pre.length → matchVersionAt (s.drop i) = none) ∧
      matchVersionAt (s.drop pre.length) = some (caps, after) := by
  intro s
  induction s with
  | nil => intro pre after caps h; exact Option.noConfusion h
  | cons c rest ih =>
    intro pre after caps h
    cases hm : matchVersionAt (c :: rest) with
    | some p =>
      obtain ⟨caps', after'⟩ := p
      simp only [findFirst, hm, Option.some.injEq, Prod.mk.injEq] at h
      obtain ⟨rfl, rfl, rfl⟩ := h
      exact ⟨fun i hi => absurd hi (by simp), by simpa using hm⟩
    | none =>
      simp only [findFirst, hm] at h
      cases hf : findFirst rest with
      | none => rw [hf] at h; exact Option.noConfusion h
      | some q =>
        obtain ⟨pre', caps', after'⟩ := q
        rw [hf] at h
        simp only [Option.some.injEq, Prod.mk.injEq] at h
        obtain ⟨rfl, rfl, rfl⟩ := h
        obtain ⟨ihl, ihm⟩ := ih hf
        constructor
        · intro i hi
          cases i with
          | zero => simpa using hm
          | succ j =>
            simp only [List.drop_succ_cons]
            exact ihl j (by simpa using hi)
        · simp only [List.length_cons, List.drop_succ_cons]
          exact ihm

theorem scanSegs_canon : ∀ (fuel : Nat) (s : List Char) (pc : List Char × Caps),
    pc ∈ scanSegs fuel s → canonCaps pc.2 = true := by
  intro fuel
  induction fuel with
  | zero => intro s pc h; simp [scanSegs] at h
  | succ f ih =>
    intro s pc h
    cases hf : findFirst s with
    | none => simp [scanSegs, hf] at h
    | some q =>
      obtain ⟨pre, caps, after⟩ := q
      simp only [scanSegs, hf, List.mem_cons] at h
      rcases h with rfl | h
      · exact (findFirst_spec hf).2.1
      · exact ih after pc h

/-- The scan decomposition reassembles to the original input. -/
theorem scan_reconstruct : ∀ (fuel : Nat) (s : List Char),
    joinOrig (scanSegs fuel s) ++ scanTail fuel s = s := by
  intro fuel
  induction fuel with
  | zero => intro s; simp [scanSegs, scanTail, joinOrig]
  | succ f ih =>
    intro s
    cases hf : findFirst s with
    | none => simp [scanSegs, scanTail, hf, joinOrig]
    | some q =>
      obtain ⟨pre, caps, after⟩ := q
      simp only [scanSegs, scanTail, hf, joinOrig, List.map_cons, List.flatten_cons]
      have e := (findFirst_spec hf).1
      have ih' := ih after
      simp only [joinOrig] at ih'
      rw [List.append_assoc, List.append_assoc, ih', ← List.append_assoc, ← e]

/-! ## Parsing and the replacement step -/

theorem parseU32_some {ds : List Char} {v : Nat} (h : parseU32 ds = some v) :
    v = digitsVal ds ∧ digitsVal ds < 2 ^ 32 := by
  unfold parseU32 at h
  split at h
  · next hlt => injection h with h; exact ⟨h.symm, hlt⟩
  · exact Option.noConfusion h

theorem parseU32_of_lt {ds : List Char} (h : digitsVal ds < 2 ^ 32) :
    parseU32 ds = some (digitsVal ds) := by
  unfold parseU32
  rw [if_pos h]

theorem checkedInc_some {n v : Nat} (h : checkedInc n = some v) :
    v = n + 1 ∧ n + 1 < 2 ^ 32 := by
  unfold checkedInc at h
  split at h
  · next hlt => injection h with h; exact ⟨h.symm, hlt⟩
  · exact Option.noConfusion h

theorem incTriple_some {ver : Version} {t u : Nat × Nat × Nat}
    (h : incTriple ver t = some u) : u = specIncRule ver t := by
  obtain ⟨mj, mn, pt⟩ := t
  cases ver <;>
    simp only [incTriple, Option.map_eq_some'] at h <;>
    obtain ⟨a, ha, rfl⟩ := h <;>
    simp [specIncRule, (checkedInc_some ha).1]

theorem capsFit_iff {c : Caps} : capsFit c = true ↔
    digitsVal c.1 < 2 ^ 32 ∧ digitsVal c.2.1 < 2 ^ 32 ∧ digitsVal c.2.2 < 2 ^ 32 := by
  simp [capsFit, and_assoc]

theorem replaceStep_some_selected {pos : Position} {ver : Version} {idx : Nat}
    {caps : Caps} {t : Nat × Nat × Nat} (hsel : selected pos idx = true)
    (h : replaceStep pos ver idx caps = some t) :
    t = specIncRule ver (parsedTriple caps) ∧ capsFit caps = true := by
  simp only [replaceStep, Option.bind_eq_some] at h
  obtain ⟨mj, h1, mn, h2, pt, h3, h4⟩ := h
  obtain ⟨rfl, b1⟩ := parseU32_some h1
  obtain ⟨rfl, b2⟩ := parseU32_some h2
  obtain ⟨rfl, b3⟩ := parseU32_some h3
  rw [if_pos hsel] at h4
  exact ⟨incTriple_some h4, capsFit_iff.mpr ⟨b1, b2, b3⟩⟩

theorem replaceStep_some_not_selected {pos : Position} {ver : Version} {idx : Nat}
    {caps : Caps} {t : Nat × Nat × Nat} (hsel : selected pos idx = false)
    (h : replaceStep pos ver idx caps = some t) :
    t = parsedTriple caps ∧ capsFit caps = true := by
  simp only [replaceStep, Option.bind_eq_some] at h
  obtain ⟨mj, h1, mn, h2, pt, h3, h4⟩ := h
  obtain ⟨rfl, b1⟩ := parseU32_some h1
  obtain ⟨rfl, b2⟩ := parseU32_some h2
  obtain ⟨rfl, b3⟩ := parseU32_some h3
  rw [if_neg (by simp [hsel])] at h4
  injection h4 with h4
  exact ⟨h4.symm, capsFit_iff.mpr ⟨b1, b2, b3⟩⟩

theorem replaceStep_eval_not_selected {pos : Position} {ver : Version} {idx : Nat}
    {caps : Caps} (hsel : selected pos idx = false) (hfit : capsFit caps = true) :
    replaceStep pos ver idx caps = some (parsedTriple caps) := by
  obtain ⟨f1, f2, f3⟩ := capsFit_iff.mp hfit
  simp [replaceStep, parseU32_of_lt f1, parseU32_of_lt f2, parseU32_of_lt f3, hsel,
    parsedTriple]

/-! ## The rewrite pass over the scan decomposition -/

theorem replaceCore_eq_emitAll (pos : Position) (ver : Version) :
    ∀ (fuel idx : Nat) (s : List Char),
    replaceCore pos ver fuel idx s =
      (emitAll pos ver idx (scanSegs fuel s)).map fun r => r ++ scanTail fuel s := by
  intro fuel
  induction fuel with
  | zero => intro idx s; simp [replaceCore, scanSegs, scanTail, emitAll]
  | succ f ih =>
    intro idx s
    cases hf : findFirst s with
    | none => simp [replaceCore, scanSegs, scanTail, hf, emitAll]
    | some q =>
      obtain ⟨pre, caps, after⟩ := q
      simp only [replaceCore, scanSegs, scanTail, hf, emitAll]
      rw [ih (idx + 1) after]
      cases replaceStep pos ver idx caps with
      | none => simp
      | some t =>
        cases emitAll pos ver (idx + 1) (scanSegs f after) with
        | none => simp
        | some r => simp [List.append_assoc]

theorem emitAll_some_fit (pos : Position) (ver : Version) :
    ∀ (l : List (List Char × Caps)) (idx : Nat) (r : List Char),
    emitAll pos ver idx l = some r → ∀ pc ∈ l, capsFit pc.2 = true := by
  intro l
  induction l with
  | nil => intro idx r _ pc hpc; simp at hpc
  | cons p rest ih =>
    intro idx r h pc hpc
    simp only [emitAll, Option.bind_eq_some, Option.map_eq_some'] at h
    obtain ⟨t, ht, r', hr', rfl⟩ := h
    rcases List.mem_cons.mp hpc with rfl | hpc'
    · cases hsel : selected pos idx
      · exact (replaceStep_some_not_selected hsel ht).2
      · exact (replaceStep_some_selected hsel ht).2
    · exact ih (idx + 1) r' hr' pc hpc'

/-- Characterization of a successful emission pass: each selected
occurrence is emitted as the formatted incremented triple, each unselected
occurrence is emitted byte-identically to its original text, and the gaps
are copied verbatim. -/
theorem emitAll_some_eq (pos : Position) (ver : Version) :
    ∀ (l : List (List Char × Caps)) (idx : Nat) (r : List Char),
    (∀ pc ∈ l, canonCaps pc.2 = true) → emitAll pos ver idx l = some r →
    r = ((withIdx idx l).map fun ic =>
      ic.2.1 ++ if selected pos ic.1 = true then
        formatTriple (specIncRule ver (parsedTriple ic.2.2))
      else capsText ic.2.2).flatten := by
  intro l
  induction l with
  | nil =>
    intro idx r _ h
    injection h with h
    simp [withIdx, ← h]
  | cons p rest ih =>
    intro idx r hcanon h
    simp only [emitAll, Option.bind_eq_some, Option.map_eq_some'] at h
    obtain ⟨t, ht, r', hr', rfl⟩ := h
    have hc : canonCaps p.2 = true := hcanon p (List.mem_cons_self p rest)
    have ih' := ih (idx + 1) r' (fun pc hpc => hcanon pc (List.mem_cons_of_mem p hpc)) hr'
    simp only [withIdx, List.map_cons, List.flatten_cons, ← ih']
    cases hsel : selected pos idx with
    | true =>
      obtain ⟨rfl, -⟩ := replaceStep_some_selected hsel ht
      simp [List.append_assoc]
    | false =>
      obtain ⟨rfl, -⟩ := replaceStep_some_not_selected hsel ht
      simp [List.append_assoc, formatTriple_parsedTriple hc]

/-- When `Nth k` selects no occurrence of the segment list (the counter
range misses `k`), the pass emits every segment byte-identically. -/
theorem emitAll_skip (ver : Version) (k : Nat) :
    ∀ (l : List (List Char × Caps)) (idx : Nat),
    (∀ pc ∈ l, canonCaps pc.2 = true) → (∀ pc ∈ l, capsFit pc.2 = true) →
    (k < idx ∨ idx + l.length ≤ k) →
    emitAll (Position.Nth k) ver idx l = some (joinOrig l) := by
  intro l
  induction l with
  | nil => intro idx _ _ _; simp [emitAll, joinOrig]
  | cons p rest ih =>
    intro idx hcanon hfit hk
    have hc : canonCaps p.2 = true := hcanon p (List.mem_cons_self p rest)
    have hf : capsFit p.2 = true := hfit p (List.mem_cons_self p rest)
    have hsel : selected (Position.Nth k) idx = false := by
      simp only [selected, beq_eq_false_iff_ne, ne_eq]
      simp only [List.length_cons] at hk
      omega
    have ih' := ih (idx + 1) (fun pc hpc => hcanon pc (List.mem_cons_of_mem p hpc))
      (fun pc hpc => hfit pc (List.mem_cons_of_mem p hpc))
      (by simp only [List.length_cons] at hk; omega)
    simp only [emitAll, replaceStep_eval_not_selected hsel hf, Option.some_bind, ih',
      Option.map_some', joinOrig, List.map_cons, List.flatten_cons,
      formatTriple_parsedTriple hc, List.append_assoc]

/-- When `Nth k` selects the occurrence at counter value `k` inside the
segment list, the output splits as: earlier segments verbatim, the gap of
occurrence `k`, the incremented formatted triple, later segments
verbatim. -/
theorem emitAll_nth_split (ver : Version) (k : Nat) :
    ∀ (l : List (List Char × Caps)) (idx : Nat) (r : List Char),
    (∀ pc ∈ l, canonCaps pc.2 = true) →
    emitAll (Position.Nth k) ver idx l = some r →
    idx ≤ k → k - idx < l.length →
    ∃ p c, l[k - idx]? = some (p, c) ∧
      r = joinOrig (l.take (k - idx)) ++ p ++
        formatTriple (specIncRule ver (parsedTriple c)) ++
        joinOrig (l.drop (k - idx + 1)) := by
  intro l
  induction l with
  | nil => intro idx r _ _ _ hlt; simp at hlt
  | cons hd rest ih =>
    intro idx r hcanon h hle hlt
    simp only [emitAll, Option.bind_eq_some, Option.map_eq_some'] at h
    obtain ⟨t, ht, r', hr', rfl⟩ := h
    rcases Nat.eq_or_lt_of_le hle with rfl | hltk
    · have hz : idx - idx = 0 := by omega
      have hsel : selected (Position.Nth idx) idx = true := by simp [selected]
      obtain ⟨rfl, -⟩ := replaceStep_some_selected hsel ht
      have hfitr := emitAll_some_fit (Position.Nth idx) ver rest (idx + 1) r' hr'
      have hskip := emitAll_skip ver idx rest (idx + 1)
        (fun pc hpc => hcanon pc (List.mem_cons_of_mem hd hpc)) hfitr (by omega)
      rw [hr'] at hskip
      injection hskip with hskip
      refine ⟨hd.1, hd.2, ?_, ?_⟩
      · simp [hz]
      · simp [hz, joinOrig, hskip, List.append_assoc]
    · have hsel : selected (Position.Nth k) idx = false := by
        simp only [selected, beq_eq_false_iff_ne, ne_eq]
        omega
      obtain ⟨rfl, -⟩ := replaceStep_some_not_selected hsel ht
      have hc : canonCaps hd.2 = true := hcanon hd (List.mem_cons_self hd rest)
      simp only [List.length_cons] at hlt
      obtain ⟨p, c, hget, hreq⟩ := ih (idx + 1) r'
        (fun pc hpc => hcanon pc (List.mem_cons_of_mem hd hpc)) hr'
        (by omega) (by omega)
      obtain ⟨km, hkm⟩ : ∃ m, k - idx = m + 1 := ⟨k - idx - 1, by omega⟩
      have hkm' : k - (idx + 1) = km := by omega
      rw [hkm'] at hget hreq
      refine ⟨p, c, ?_, ?_⟩
      · rw [hkm]
        simpa using hget
      · rw [hkm]
        simp only [List.take_succ_cons, List.drop_succ_cons, joinOrig, List.map_cons,
          List.flatten_cons, hreq, formatTriple_parsedTriple hc, List.append_assoc]

/-! ## String-level wrappers -/

theorem versionSegs_canon (hay : String) : ∀ pc ∈ versionSegs hay, canonCaps pc.2 = true :=
  fun pc hpc => scanSegs_canon (hay.data.length + 1) hay.data pc hpc

theorem versionSegs_reconstruct (hay : String) :
    joinOrig (versionSegs hay) ++ versionTail hay = hay.data :=
  scan_reconstruct (hay.data.length + 1) hay.data

theorem inc_eq (hay : String) (pos : Position) (ver : Version) :
    inc hay pos ver =
      (emitAll pos ver 0 (versionSegs hay)).map fun r => (r ++ versionTail hay).asString := by
  unfold inc
  rw [replaceCore_eq_emitAll, Option.map_map]
  rfl

theorem inc_some_data {hay out : String} {pos : Position} {ver : Version}
    (h : inc hay pos ver = some out) :
    ∃ r, emitAll pos ver 0 (versionSegs hay) = some r ∧ out.data = r ++ versionTail hay := by
  rw [inc_eq] at h
  cases he : emitAll pos ver 0 (versionSegs hay) with
  | none => rw [he] at h; exact Option.noConfusion h
  | some r =>
    rw [he] at h
    simp only [Option.map_some'] at h
    injection h with h
    exact ⟨r, rfl, (congrArg String.data h).symm⟩

theorem inc_none_of_unfit {hay : String} {pos : Position} {ver : Version}
    {pc : List Char × Caps} (hpc : pc ∈ versionSegs hay) (hbad : capsFit pc.2 = false) :
    inc hay pos ver = none := by
  cases hi : inc hay pos ver with
  | none => rfl
  | some out =>
    obtain ⟨r, he, -⟩ := inc_some_data hi
    have := emitAll_some_fit pos ver _ 0 r he pc hpc
    rw [hbad] at this
    exact Bool.noConfusion this

/-! ## The diagnostic notice channel -/

theorem replaceStepFull_fst (isTerm : Bool) (pos : Position) (ver : Version) (idx : Nat)
    (caps : Caps) :
    (replaceStepFull isTerm pos ver idx caps).map Prod.fst = replaceStep pos ver idx caps := by
  unfold replaceStepFull replaceStep
  cases parseU32 caps.1 with
  | none => simp
  | some mj =>
    cases parseU32 caps.2.1 with
    | none => simp
    | some mn =>
      cases parseU32 caps.2.2 with
      | none => simp
      | some pt =>
        simp only [Option.some_bind]
        cases hsel : selected pos idx with
        | false => simp [hsel]
        | true =>
          simp only [hsel, if_true]
          cases incTriple ver (mj, mn, pt) <;> simp

theorem replaceStepFull_false_notices {pos : Position} {ver : Version} {idx : Nat}
    {caps : Caps} {tn : (Nat × Nat × Nat) × List (List Char)}
    (h : replaceStepFull false pos ver idx caps = some tn) : tn.2 = [] := by
  simp only [replaceStepFull, Option.bind_eq_some] at h
  obtain ⟨mj, -, mn, -, pt, -, h⟩ := h
  split at h
  · simp only [Option.map_eq_some'] at h
    obtain ⟨t, -, rfl⟩ := h
    rfl
  · injection h with h
    rw [← h]

theorem replaceCoreFull_fst (isTerm : Bool) (pos : Position) (ver : Version) :
    ∀ (fuel idx : Nat) (s : List Char),
    (replaceCoreFull isTerm pos ver fuel idx s).map Prod.fst =
      replaceCore pos ver fuel idx s := by
  intro fuel
  induction fuel with
  | zero => intro idx s; simp [replaceCoreFull, replaceCore]
  | succ f ih =>
    intro idx s
    cases hf : findFirst s with
    | none => simp [replaceCoreFull, replaceCore, hf]
    | some q =>
      obtain ⟨pre, caps, after⟩ := q
      simp only [replaceCoreFull, replaceCore, hf]
      cases hs : replaceStepFull isTerm pos ver idx caps with
      | none =>
        have hstep : replaceStep pos ver idx caps = none := by
          rw [← replaceStepFull_fst isTerm, hs]; rfl
        simp [hstep]
      | some tn =>
        have hstep : replaceStep pos ver idx caps = some tn.1 := by
          rw [← replaceStepFull_fst isTerm, hs]; rfl
        rw [hstep]
        simp only [Option.some_bind]
        cases hc : replaceCoreFull isTerm pos ver f (idx + 1) after with
        | none =>
          have hrest : replaceCore pos ver f (idx + 1) after = none := by
            rw [← ih (idx + 1) after, hc]; rfl
          simp [hrest]
        | some rn =>
          have hrest : replaceCore pos ver f (idx + 1) after = some rn.1 := by
            rw [← ih (idx + 1) after, hc]; rfl
          simp [hrest]

theorem replaceCoreFull_false_notices (pos : Position) (ver : Version) :
    ∀ (fuel idx : Nat) (s : List Char) (r : List Char × List (List Char)),
    replaceCoreFull false pos ver fuel idx s = some r → r.2 = [] := by
  intro fuel
  induction fuel with
  | zero =>
    intro idx s r h
    injection h with h
    rw [← h]
  | succ f ih =>
    intro idx s r h
    cases hf : findFirst s with
    | none =>
      simp only [replaceCoreFull, hf] at h
      injection h with h
      rw [← h]
    | some q =>
      obtain ⟨pre, caps, after⟩ := q
      simp only [replaceCoreFull, hf, Option.bind_eq_some, Option.map_eq_some'] at h
      obtain ⟨tn, htn, rn, hrn, rfl⟩ := h
      simp [replaceStepFull_false_notices htn, ih (idx + 1) after rn hrn]

theorem withIdx_map_snd {α β : Type} (g : α → β) :
    ∀ (i : Nat) (l : List α), (withIdx i l).map (fun ic => g ic.2) = l.map g := by
  intro i l
  induction l generalizing i with
  | nil => rfl
  | cons x xs ih => simp [withIdx, ih]

/-! ## The claims -/

/-- Claim C1: for every input text, for every match selected for rewriting
with parsed components (major, minor, patch), the replacement triple is
exactly: `Major` gives (major+1, 0, 0); `Minor` gives (major, minor+1, 0);
`Patch` gives (major, minor, patch+1) — this is `specIncRule` — and it is
emitted formatted as `{major}.{minor}.{patch}` in canonical decimal with no
leading zeros or padding (`natToDigitChars` always yields a canonical
numeral). -/
theorem c1_replacement_rule (hay out : String) (pos : Position) (ver : Version)
    (h : inc hay pos ver = some out) :
    out.data = ((withIdx 0 (versionSegs hay)).map fun ic =>
        ic.2.1 ++ if selected pos ic.1 = true then
          formatTriple (specIncRule ver (parsedTriple ic.2.2))
        else capsText ic.2.2).flatten ++ versionTail hay
    ∧ ∀ n : Nat, canonNumeral (natToDigitChars n) = true := by
  obtain ⟨r, he, hout⟩ := inc_some_data h
  refine ⟨?_, canonNumeral_natToDigitChars⟩
  rw [hout, emitAll_some_eq pos ver _ 0 r (versionSegs_canon hay) he]

theorem c1_replacement_rule_witness :
    ("1.0.1" : String).data = ((withIdx 0 (versionSegs "1.0.0")).map fun ic =>
        ic.2.1 ++ if selected (Position.Nth 0) ic.1 = true then
          formatTriple (specIncRule Version.Patch (parsedTriple ic.2.2))
        else capsText ic.2.2).flatten ++ versionTail "1.0.0"
    ∧ ∀ n : Nat, canonNumeral (natToDigitChars n) = true :=
  c1_replacement_rule "1.0.0" "1.0.1" (Position.Nth 0) Version.Patch (by decide)

/-- Claim C2: for every input text and every increment kind,
`rewrite(text, Nth(k), kind)` modifies only the match at zero-based
occurrence index `k`: the input decomposes into gaps, matched substrings
and a tail, and the output is the same decomposition in which only the
occurrence with counter value `k` is replaced (all other occurrences are
re-emitted byte-for-byte as `capsText`, and all gaps and the tail are
copied verbatim). -/
theorem c2_nth_frame (hay out : String) (k : Nat) (ver : Version)
    (h : inc hay (Position.Nth k) ver = some out) :
    hay.data = ((versionSegs hay).map fun pc => pc.1 ++ capsText pc.2).flatten
        ++ versionTail hay
    ∧ out.data = ((withIdx 0 (versionSegs hay)).map fun ic =>
        ic.2.1 ++ if ic.1 = k then
          formatTriple (specIncRule ver (parsedTriple ic.2.2))
        else capsText ic.2.2).flatten ++ versionTail hay := by
  constructor
  · have hr := versionSegs_reconstruct hay
    simp only [joinOrig] at hr
    exact hr.symm
  · obtain ⟨r, he, hout⟩ := inc_some_data h
    rw [hout, emitAll_some_eq _ _ _ 0 r (versionSegs_canon hay) he]
    congr 1
    congr 1
    apply List.map_congr_left
    intro ic _
    by_cases hik : ic.1 = k
    · simp [selected, hik]
    · have hbeq : (k == ic.1) = false := beq_eq_false_iff_ne.mpr fun e => hik e.symm
      simp [selected, hbeq, hik]

theorem c2_nth_frame_witness :
    ("1.0.0 1.2.1" : String).data
      = ((versionSegs "1.0.0 1.2.1").map fun pc => pc.1 ++ capsText pc.2).flatten
        ++ versionTail "1.0.0 1.2.1"
    ∧ ("1.0.0 1.3.0" : String).data
      = ((withIdx 0 (versionSegs "1.0.0 1.2.1")).map fun ic =>
        ic.2.1 ++ if ic.1 = 1 then
          formatTriple (specIncRule Version.Minor (parsedTriple ic.2.2))
        else capsText ic.2.2).flatten ++ versionTail "1.0.0 1.2.1" :=
  c2_nth_frame "1.0.0 1.2.1" "1.0.0 1.3.0" 1 Version.Minor (by decide)

/-- Claim C3: for every input text and every increment kind,
`rewrite(text, All, kind)` applies the same increment rule to every matched
occurrence, leaves all non-matching text untouched, and preserves the
original order of occurrences and the inter-match content verbatim; in
particular `rewrite("3.0.2 1.0.1", All, Major) = "4.0.0 2.0.0"`. -/
theorem c3_all_rule (hay out : String) (ver : Version)
    (h : inc hay Position.All ver = some out) :
    hay.data = ((versionSegs hay).map fun pc => pc.1 ++ capsText pc.2).flatten
        ++ versionTail hay
    ∧ out.data = ((versionSegs hay).map fun pc =>
        pc.1 ++ formatTriple (specIncRule ver (parsedTriple pc.2))).flatten
        ++ versionTail hay
    ∧ inc "3.0.2 1.0.1" Position.All Version.Major = some "4.0.0 2.0.0" := by
  refine ⟨?_, ?_, by decide⟩
  · have hr := versionSegs_reconstruct hay
    simp only [joinOrig] at hr
    exact hr.symm
  · obtain ⟨r, he, hout⟩ := inc_some_data h
    rw [hout, emitAll_some_eq _ _ _ 0 r (versionSegs_canon hay) he]
    congr 1
    congr 1
    rw [← withIdx_map_snd
      (fun pc => pc.1 ++ formatTriple (specIncRule ver (parsedTriple pc.2)))
      0 (versionSegs hay)]
    apply List.map_congr_left
    intro ic _
    simp [selected]

theorem c3_all_rule_witness :
    ("3.0.2 1.0.1" : String).data
      = ((versionSegs "3.0.2 1.0.1").map fun pc => pc.1 ++ capsText pc.2).flatten
        ++ versionTail "3.0.2 1.0.1"
    ∧ ("4.0.0 2.0.0" : String).data
      = ((versionSegs "3.0.2 1.0.1").map fun pc =>
        pc.1 ++ formatTriple (specIncRule Version.Major (parsedTriple pc.2))).flatten
        ++ versionTail "3.0.2 1.0.1"
    ∧ inc "3.0.2 1.0.1" Position.All Version.Major = some "4.0.0 2.0.0" :=
  c3_all_rule "3.0.2 1.0.1" "4.0.0 2.0.0" Version.Major (by decide)

/-- Claim C4, counterexample: the claim asserts that `Nth(k)` with `k` at
or beyond the number of matches always returns the input unchanged with no
error, but on `"4294967296.0.0"` (one match whose major component exceeds
the `u32` range) with `Nth(1)` the code still parses the match before the
selection decision and the call aborts instead. -/
theorem c4_counterexample :
    inc "4294967296.0.0" (Position.Nth 1) Version.Patch = none
    ∧ inc "4294967296.0.0" (Position.Nth 1) Version.Patch
        ≠ some "4294967296.0.0" := by
  constructor
  · decide
  · decide

/-- Claim C4 (amended): if the text contains no pattern match, `rewrite`
returns the input unchanged with no error for any policy and kind; and if
the policy is `Nth(k)` with `k` at or beyond the number of matches, then —
provided every matched component value fits the 32-bit unsigned range —
`rewrite` returns the input unchanged with no error. -/
theorem c4_no_op (hay : String) :
    (∀ (pos : Position) (ver : Version),
      list_versions hay = [] → inc hay pos ver = some hay)
    ∧ (∀ (k : Nat) (ver : Version),
      (list_versions hay).length ≤ k →
      (∀ pc ∈ versionSegs hay, capsFit pc.2 = true) →
      inc hay (Position.Nth k) ver = some hay) := by
  constructor
  · intro pos ver hnil
    have hsegs : versionSegs hay = [] := by
      simpa [list_versions, List.map_eq_nil_iff] using hnil
    have htail : versionTail hay = hay.data := by
      have hr := versionSegs_reconstruct hay
      rw [hsegs] at hr
      simpa [joinOrig] using hr
    rw [inc_eq, hsegs, htail]
    simp only [emitAll, Option.map_some', List.nil_append]
    rfl
  · intro k ver hk hfit
    have hlen : (versionSegs hay).length ≤ k := by
      simpa [list_versions] using hk
    have hskip := emitAll_skip ver k (versionSegs hay) 0 (versionSegs_canon hay) hfit
      (Or.inr (by omega))
    rw [inc_eq, hskip]
    simp only [Option.map_some']
    rw [versionSegs_reconstruct hay]
    rfl

theorem c4_no_op_witness :
    inc "no versions here" Position.All Version.Minor = some "no versions here"
    ∧ inc "1.0.0" (Position.Nth 5) Version.Patch = some "1.0.0" :=
  ⟨(c4_no_op "no versions here").1 Position.All Version.Minor (by decide),
   (c4_no_op "1.0.0").2 5 Version.Patch (by decide) (by decide)⟩

/-- Claim C5: every substring reported by `list` is exactly three
dot-separated groups, each the single digit 0 or a nonzero digit followed
by any digits (so numerals with leading zeros such as `01` are never
components); in particular `list("1.01.0 12.13.14")` returns exactly
`["12.13.14"]`. -/
theorem c5_pattern_shape :
    (∀ (hay v : String), v ∈ list_versions hay →
      ∃ mj mn pt : List Char, v = (mj ++ '.' :: mn ++ '.' :: pt).asString
        ∧ canonNumeral mj = true ∧ canonNumeral mn = true ∧ canonNumeral pt = true)
    ∧ list_versions "1.01.0 12.13.14" = ["12.13.14"] := by
  refine ⟨?_, by decide⟩
  intro hay v hv
  simp only [list_versions, List.mem_map] at hv
  obtain ⟨⟨p, c⟩, hpc, rfl⟩ := hv
  obtain ⟨mj, mn, pt⟩ := c
  have hc := versionSegs_canon hay _ hpc
  have hc' : canonNumeral mj = true ∧ canonNumeral mn = true ∧ canonNumeral pt = true := by
    simpa [canonCaps, and_assoc] using hc
  exact ⟨mj, mn, pt, rfl, hc'.1, hc'.2.1, hc'.2.2⟩

theorem c5_pattern_shape_witness :
    ∃ mj mn pt : List Char, ("12.13.14" : String) = (mj ++ '.' :: mn ++ '.' :: pt).asString
      ∧ canonNumeral mj = true ∧ canonNumeral mn = true ∧ canonNumeral pt = true :=
  c5_pattern_shape.1 "1.01.0 12.13.14" "12.13.14" (by decide)

/-- Claim C6: matching uses leftmost, non-overlapping scan semantics with
no word-boundary requirement: the reported match is at the first position
where the pattern can match (it fails at every earlier position), scanning
resumes immediately after the matched text, and a triple embedded in larger
adjacent numeric or textual context still matches on the triple substring
(e.g. inside `"12.13.14x"`). -/
theorem c6_leftmost_scan :
    (∀ (s pre after : List Char) (caps : Caps),
      findFirst s = some (pre, caps, after) →
      s = pre ++ capsText caps ++ after
      ∧ (∀ i, i < pre.length → matchVersionAt (s.drop i) = none)
      ∧ matchVersionAt (s.drop pre.length) = some (caps, after))
    ∧ (∀ (fuel : Nat) (s pre after : List Char) (caps : Caps),
      findFirst s = some (pre, caps, after) →
      scanSegs (fuel + 1) s = (pre, caps) :: scanSegs fuel after)
    ∧ list_versions "12.13.14x" = ["12.13.14"]
    ∧ list_versions "well, 1.2.3x and x1.2.34 match" = ["1.2.3", "1.2.34"] := by
  refine ⟨?_, ?_, by decide, by decide⟩
  · intro s pre after caps h
    exact ⟨(findFirst_spec h).1, (findFirst_leftmost h).1, (findFirst_leftmost h).2⟩
  · intro fuel s pre after caps h
    simp [scanSegs, h]

theorem c6_leftmost_scan_witness :
    ("x1.2.3" : String).data = ['x'] ++ capsText (['1'], ['2'], ['3']) ++ []
    ∧ (∀ i, i < (['x'] : List Char).length →
        matchVersionAt (("x1.2.3" : String).data.drop i) = none)
    ∧ matchVersionAt (("x1.2.3" : String).data.drop (['x'] : List Char).length)
        = some ((['1'], ['2'], ['3']), []) :=
  c6_leftmost_scan.1 ("x1.2.3" : String).data ['x'] [] (['1'], ['2'], ['3']) (by decide)

/-- Claim C7: occurrence indices are assigned by counting every match in
left-to-right order regardless of selection: whenever
`rewrite(text, Nth(k), kind)` produces an output and `k` is below the
number of matches, the substring it rewrites is exactly the k-th element
(zero-based) of `list(text)`, with everything before and after it
byte-for-byte identical between input and output, and `list` returns the
ordered matched substrings of the original text. -/
theorem c7_index_consistency (hay out : String) (k : Nat) (ver : Version)
    (hk : k < (list_versions hay).length)
    (h : inc hay (Position.Nth k) ver = some out) :
    ∃ (pre gap post : List Char) (c : Caps),
      (list_versions hay)[k]? = some ((capsText c).asString)
      ∧ hay.data = pre ++ gap ++ capsText c ++ post
      ∧ out.data = pre ++ gap ++ formatTriple (specIncRule ver (parsedTriple c)) ++ post := by
  obtain ⟨r, he, hout⟩ := inc_some_data h
  have hklen : k < (versionSegs hay).length := by
    simpa [list_versions] using hk
  obtain ⟨p, c, hget, hreq⟩ := emitAll_nth_split ver k (versionSegs hay) 0 r
    (versionSegs_canon hay) he (Nat.zero_le k) (by simpa using hklen)
  simp only [Nat.sub_zero] at hget hreq
  have hgetel : (versionSegs hay)[k] = (p, c) := by
    have h2 := List.getElem?_eq_getElem hklen
    rw [hget] at h2
    exact (Option.some.inj h2).symm
  have hsplit : versionSegs hay =
      (versionSegs hay).take k ++ (p, c) :: (versionSegs hay).drop (k + 1) := by
    conv_lhs => rw [← List.take_append_drop k (versionSegs hay)]
    rw [List.drop_eq_getElem_cons hklen, hgetel]
  refine ⟨joinOrig ((versionSegs hay).take k), p,
    joinOrig ((versionSegs hay).drop (k + 1)) ++ versionTail hay, c, ?_, ?_, ?_⟩
  · rw [list_versions, List.getElem?_map, hget]
    rfl
  · conv_lhs => rw [← versionSegs_reconstruct hay, hsplit]
    simp [joinOrig, List.append_assoc]
  · rw [hout, hreq]
    simp [List.append_assoc]

theorem c7_index_consistency_witness :
    ∃ (pre gap post : List Char) (c : Caps),
      (list_versions "1.0.0 1.2.1")[1]? = some ((capsText c).asString)
      ∧ ("1.0.0 1.2.1" : String).data = pre ++ gap ++ capsText c ++ post
      ∧ ("1.0.0 1.3.0" : String).data
          = pre ++ gap ++ formatTriple (specIncRule Version.Minor (parsedTriple c)) ++ post :=
  c7_index_consistency "1.0.0 1.2.1" "1.0.0 1.3.0" 1 Version.Minor (by decide) (by decide)

/-- Claim C8: for every input in which a matched numeral group's decimal
value exceeds the 32-bit unsigned range, `rewrite` signals a failure for
that call rather than silently wrapping or truncating; and incrementing a
component whose value is `2^32 - 1` likewise signals a failure under the
overflow-checked arithmetic the crate's own tests run with (a release
build would instead wrap silently — see `checkedInc`). -/
theorem c8_overflow_failure :
    (∀ (hay : String) (pos : Position) (ver : Version),
      (∃ pc ∈ versionSegs hay, capsFit pc.2 = false) → inc hay pos ver = none)
    ∧ inc "4294967295.0.0" Position.All Version.Major = none := by
  refine ⟨?_, by decide⟩
  rintro hay pos ver ⟨pc, hpc, hbad⟩
  exact inc_none_of_unfit hpc hbad

theorem c8_overflow_failure_witness :
    inc "9999999999.0.0" Position.All Version.Patch = none :=
  c8_overflow_failure.1 "9999999999.0.0" Position.All Version.Patch
    ⟨([], (['9', '9', '9', '9', '9', '9', '9', '9', '9', '9'], ['0'], ['0'])),
      by decide, by decide⟩

/-- Claim C9: both core operations are deterministic functions of their
arguments alone: `list` on the same text always returns the same sequence,
the primary output of `rewrite` is identical whether or not the output
destination is interactive (the `isTerm` flag), it coincides with `inc`,
and when the destination is not interactive no `{old} -> {new}` notices
are produced at all — the notice channel is never mixed into the primary
output. -/
theorem c9_deterministic_pure :
    (∀ hay : String, list_versions hay = list_versions hay)
    ∧ (∀ (hay : String) (pos : Position) (ver : Version) (b1 b2 : Bool),
        (incFull b1 hay pos ver).map Prod.fst = (incFull b2 hay pos ver).map Prod.fst)
    ∧ (∀ (hay : String) (pos : Position) (ver : Version) (b : Bool),
        (incFull b hay pos ver).map Prod.fst = inc hay pos ver)
    ∧ (∀ (hay : String) (pos : Position) (ver : Version) (r : String × List String),
        incFull false hay pos ver = some r → r.2 = []) := by
  have proj : ∀ (hay : String) (pos : Position) (ver : Version) (b : Bool),
      (incFull b hay pos ver).map Prod.fst = inc hay pos ver := by
    intro hay pos ver b
    unfold incFull inc
    rw [← replaceCoreFull_fst b pos ver (hay.data.length + 1) 0 hay.data]
    cases replaceCoreFull b pos ver (hay.data.length + 1) 0 hay.data <;> simp
  refine ⟨fun _ => rfl,
    fun hay pos ver b1 b2 => (proj hay pos ver b1).trans (proj hay pos ver b2).symm,
    proj, ?_⟩
  intro hay pos ver r h
  unfold incFull at h
  simp only [Option.map_eq_some'] at h
  obtain ⟨q, hq, rfl⟩ := h
  simp [replaceCoreFull_false_notices pos ver _ 0 hay.data q hq]

theorem c9_deterministic_pure_witness :
    ((incFull true "1.0.0" (Position.Nth 0) Version.Patch).map Prod.fst
      = (incFull false "1.0.0" (Position.Nth 0) Version.Patch).map Prod.fst)
    ∧ (("1.0.1" : String), ([] : List String)).2 = [] :=
  ⟨c9_deterministic_pure.2.1 "1.0.0" (Position.Nth 0) Version.Patch true false,
   c9_deterministic_pure.2.2.2 "1.0.0" (Position.Nth 0) Version.Patch ("1.0.1", [])
     (by decide)⟩

/-- Claim C10: every matched occurrence is numerically parsed before the
selection decision is made, so for every input containing any match whose
component value exceeds the 32-bit unsigned range, `rewrite` fails for the
whole call even when that occurrence is not the selected one (`Nth k`
pointing at a different occurrence index `i ≠ k`), rather than passing the
oversized occurrence through unchanged. -/
theorem c10_parse_before_selection (hay : String) (k i : Nat) (ver : Version)
    (pc : List Char × Caps) (hget : (versionSegs hay)[i]? = some pc)
    (hbad : capsFit pc.2 = false) (_hne : i ≠ k) :
    inc hay (Position.Nth k) ver = none :=
  inc_none_of_unfit (List.getElem?_mem hget) hbad

theorem c10_parse_before_selection_witness :
    inc "1.2.3 4294967296.0.0" (Position.Nth 0) Version.Patch = none :=
  c10_parse_before_selection "1.2.3 4294967296.0.0" 0 1 Version.Patch
    ([' '], (['4', '2', '9', '4', '9', '6', '7', '2', '9', '6'], ['0'], ['0']))
    (by decide) (by decide) (by decide)

end Verinc
